import Mathlib

/-!
Shallow embedding of the in-memory relational-algebra engine
(`src/databases/tables.py` and `src/databases/operations.py`).

Rows are Python `dict`s from column name to scalar value; dict equality in
Python is key-order independent, so rows are embedded as association lists
kept in a canonical form (keys strictly sorted by a character-wise order),
built exclusively through `rowInsert`.  Tables are Python lists of rows.
Python `set`s of strings are embedded as strictly sorted, duplicate-free
lists, a legitimate instantiation of CPython's unspecified hash iteration
order.  Fallible Python code (KeyError, TypeError) is embedded in
`Except String`.
-/

set_option maxRecDepth 4000

namespace RelDB

/-- Scalar values stored in a row: the sample data uses ints, strings,
booleans and `None`.  Equality is Python `==` restricted to these types
(values of distinct types compare unequal, `None == None` is true). -/
inductive Value where
  | int (n : Int)
  | str (s : String)
  | bool (b : Bool)
  | null
deriving DecidableEq

/-- A Python `dict` from column name to value, in canonical form:
association list with keys strictly increasing in `strLt`. -/
abbrev Row := List (String × Value)

/-- `Table = List[dict]` (`tables.py`). -/
abbrev Table := List Row

/-- Character-wise lexicographic comparison of key strings, used only to fix
the canonical key order of a row. -/
def charsLt : List Char → List Char → Bool
  | [], [] => false
  | [], _ :: _ => true
  | _ :: _, [] => false
  | a :: as, b :: bs => if a < b then true else if b < a then false else charsLt as bs

/-- Strict order on strings via `charsLt` on their character lists. -/
def strLt (a b : String) : Bool := charsLt a.data b.data

/-- Python `d[k]` as an optional lookup: first entry whose key is `k`. -/
def rowFind? : Row → String → Option Value
  | [], _ => none
  | (k', v) :: rest, k => if k = k' then some v else rowFind? rest k

/-- Value of the LAST entry with key `k`, if any (later dict writes win). -/
def rowFindLast? : Row → String → Option Value
  | [], _ => none
  | (k', v) :: rest, k =>
    match rowFindLast? rest k with
    | some v' => some v'
    | none => if k = k' then some v else none

/-- Python `d[k] = v` on the canonical form: replace the binding of `k`
if present, otherwise insert at the sorted position. -/
def rowInsert : Row → String → Value → Row
  | [], k, v => [(k, v)]
  | (k', v') :: rest, k, v =>
    if k = k' then (k, v) :: rest
    else if strLt k k' then (k, v) :: (k', v') :: rest
    else (k', v') :: rowInsert rest k v

/-- Python `{**a, **b}`: start from `a` and write every entry of `b`
(in list order, so later entries of `b` overwrite earlier ones). -/
def rowMerge (a b : Row) : Row := b.foldl (fun r kv => rowInsert r kv.1 kv.2) a

/-- Building a dict from a list of key/value pairs (dict displays and
comprehensions): successive writes into the empty dict. -/
def rowOfList (l : List (String × Value)) : Row := rowMerge [] l

/-- `record.keys()` as a list. -/
def rowKeys (r : Row) : List String := r.map Prod.fst

/-- Python `k in record`. -/
def rowHasKey (r : Row) (k : String) : Bool := (rowFind? r k).isSome

/-- The canonical-form invariant: keys strictly sorted (hence no duplicate
keys); list equality of canonical rows coincides with Python dict
equality. -/
def RowCanon (r : Row) : Prop := List.Pairwise (fun a b => strLt a.1 b.1 = true) r

instance (r : Row) : Decidable (RowCanon r) :=
  inferInstanceAs (Decidable
    (List.Pairwise (fun a b : String × Value => strLt a.1 b.1 = true) r))

/-- Modelled from the spec: `_remove_duplicates` is imported by
`operations.py` from `.tables` but is absent from the sources; §4.1 of the
spec describes it as `deduplicate(rows)`, which "collapses
structurally-equal rows into a set".  Embedded as a stable deduplication
keeping the first occurrence of each row. -/
def dedupAcc (seen : Table) : Table → Table
  | [] => []
  | r :: rest => if r ∈ seen then dedupAcc seen rest else r :: dedupAcc (r :: seen) rest

/-- Modelled from the spec: see `dedupAcc`. -/
def _remove_duplicates (t : Table) : Table := dedupAcc [] t

/-- Insertion into a sorted duplicate-free list of strings (Python `set`
of column names, with sorted order standing in for hash order). -/
def insertSortedStr : List String → String → List String
  | [], k => [k]
  | k' :: rest, k =>
    if k = k' then k' :: rest
    else if strLt k k' then k :: k' :: rest
    else k' :: insertSortedStr rest k

/-- `set(l)` for a list of strings. -/
def listToSet (l : List String) : List String := l.foldl insertSortedStr []

/-- Concatenation of the key lists of all records of a table. -/
def keysUnion : Table → List String
  | [] => []
  | r :: rest => rowKeys r ++ keysUnion rest

/-- `_columns_in_table` (`tables.py`):
`set.union(*[set(record.keys()) for record in table])`.
On an empty table the starred call has no arguments and raises `TypeError`. -/
def _columns_in_table (table : Table) : Except String (List String) :=
  match table with
  | [] => Except.error "TypeError: set.union needs at least one argument"
  | _ => Except.ok (listToSet (keysUnion table))

/-- `f"{prefix}.{key}"`. -/
def prefixKey (p : String) (k : String) : String := String.mk (p.data ++ ('.' :: k.data))

/-- `_prefix_row` (`tables.py`): rebuild the dict with every key prefixed. -/
def _prefix_row (row : Row) (p : String) : Row :=
  rowOfList (row.map (fun kv => (prefixKey p kv.1, kv.2)))

/-- `_prefix_columns` (`tables.py`). -/
def _prefix_columns (table : Table) (p : String) : Table :=
  table.map (fun row => _prefix_row row p)

/-- `make_employee` (`tables.py`). -/
def make_employee (id : Int) (name : String) (position : String) (salary : Int) : Row :=
  rowOfList [("id", Value.int id), ("name", Value.str name),
             ("position", Value.str position), ("salary", Value.int salary)]

/-- `make_task` (`tables.py`). -/
def make_task (id : Int) (employee_id : Int) (completed : Bool) : Row :=
  rowOfList [("id", Value.int id), ("employee_id", Value.int employee_id),
             ("completed", Value.bool completed)]

/-- Python item assignment `row[k] = v`: rows are plain `dict`s
(`Table = List[dict]`, `tables.py`), so the write always succeeds and
rebinds the key. -/
def rowSetItem (r : Row) (k : String) (v : Value) : Row := rowInsert r k v

/-- A Python list comprehension of fallible element computations: the first
raised error aborts the whole comprehension. -/
def mapME (f : Row → Except String Row) : Table → Except String Table
  | [] => Except.ok []
  | r :: rest =>
    match f r with
    | Except.ok r' =>
      match mapME f rest with
      | Except.ok rest' => Except.ok (r' :: rest')
      | Except.error e => Except.error e
    | Except.error e => Except.error e

/-- `select` (`operations.py`): keep the records satisfying every
condition, then deduplicate. -/
def select (table : Table) (conditions : List (Row → Bool)) : Table :=
  _remove_duplicates (table.filter (fun record => conditions.all (fun cond => cond record)))

/-- The dict comprehension inside `project`:
`{column: record[column] for column in columns}`; a missing column raises
`KeyError`. -/
def projectRowE (record : Row) : List String → Row → Except String Row
  | [], acc => Except.ok acc
  | c :: rest, acc =>
    match rowFind? record c with
    | some v => projectRowE record rest (rowInsert acc c v)
    | none => Except.error ("KeyError: " ++ c)

/-- `project` (`operations.py`). -/
def project (table : Table) (columns : List String) : Except String Table :=
  match mapME (fun record => projectRowE record columns []) table with
  | Except.ok rows => Except.ok (_remove_duplicates rows)
  | Except.error e => Except.error e

/-- `columns.get(old_name, old_name)` for the rename mapping. -/
def dictGetD : List (String × String) → String → String
  | [], k => k
  | (a, b) :: rest, k => if k = a then b else dictGetD rest k

/-- The dict comprehension inside `rename`: for every column of the whole
table, write `record[old_name]` under the (possibly) new name; a record
lacking one of the table's columns raises `KeyError`. -/
def renameRowE (columns : List (String × String)) (record : Row) :
    List String → Row → Except String Row
  | [], acc => Except.ok acc
  | old :: rest, acc =>
    match rowFind? record old with
    | some v => renameRowE columns record rest (rowInsert acc (dictGetD columns old) v)
    | none => Except.error ("KeyError: " ++ old)

/-- `rename` (`operations.py`). -/
def rename (table : Table) (columns : List (String × String)) : Except String Table :=
  match _columns_in_table table with
  | Except.error e => Except.error e
  | Except.ok table_columns =>
    match mapME (fun record => renameRowE columns record table_columns []) table with
    | Except.ok rows => Except.ok (_remove_duplicates rows)
    | Except.error e => Except.error e

/-- `itertools.product(left, right)` in row-major order. -/
def pairsOf : Table → Table → List (Row × Row)
  | [], _ => []
  | rl :: rest, right => right.map (fun rr => (rl, rr)) ++ pairsOf rest right

/-- `cross_product` (`operations.py`): prefix both tables, merge every pair
of the Cartesian product, deduplicate. -/
def cross_product (left right : Table) : Table :=
  _remove_duplicates
    ((pairsOf (_prefix_columns left "left") (_prefix_columns right "right")).map
      (fun p => rowMerge p.1 p.2))

/-- `theta_join` (`operations.py`): keep the pairs satisfying all
conditions (evaluated on the unprefixed rows), merge their prefixed rows,
deduplicate. -/
def theta_join (left right : Table) (conditions : List (Row → Row → Bool)) : Table :=
  _remove_duplicates
    (((pairsOf left right).filter (fun p => conditions.all (fun cond => cond p.1 p.2))).map
      (fun p => rowMerge (_prefix_row p.1 "left") (_prefix_row p.2 "right")))

/-- The pair loop of `theta_join` as called from `natural_join`.  The list
`conditions = [lambda x, y: x[col] == y[col] for col in common_cols]` built
by `natural_join` consists of closures that all capture the comprehension
variable `col` itself; by the time `theta_join` invokes them the loop is
over, so every condition reads the final element of `common_cols` (here:
the last element of the sorted common-column list, one instantiation of
CPython's unspecified set order).  Looking up a column missing from a row
raises `KeyError`. -/
def njPairs (col : String) : List (Row × Row) → Except String Table
  | [] => Except.ok []
  | (rl, rr) :: rest =>
    match rowFind? rl col, rowFind? rr col with
    | some vl, some vr =>
      match njPairs col rest with
      | Except.ok tail =>
        if vl = vr then
          Except.ok (rowMerge (_prefix_row rl "left") (_prefix_row rr "right") :: tail)
        else Except.ok tail
      | Except.error e => Except.error e
    | none, _ => Except.error ("KeyError: " ++ col)
    | some _, none => Except.error ("KeyError: " ++ col)

/-- `natural_join` (`operations.py`): equality conditions on the common
columns (subject to the late-binding behaviour documented at `njPairs`),
delegated to the `theta_join` pair loop, deduplicated twice. -/
def natural_join (left right : Table) : Except String Table :=
  match _columns_in_table left with
  | Except.error e => Except.error e
  | Except.ok lcols =>
    match _columns_in_table right with
    | Except.error e => Except.error e
    | Except.ok rcols =>
      let common := lcols.filter (fun c => decide (c ∈ rcols))
      match common.getLast? with
      | none =>
        Except.ok (_remove_duplicates (_remove_duplicates
          ((pairsOf left right).map
            (fun p => rowMerge (_prefix_row p.1 "left") (_prefix_row p.2 "right")))))
      | some col =>
        match njPairs col (pairsOf left right) with
        | Except.ok joined => Except.ok (_remove_duplicates (_remove_duplicates joined))
        | Except.error e => Except.error e

/-- `_pad_table` (`operations.py`): extend every row with `None` under each
of `with_cols`, then deduplicate. -/
def _pad_table (table : Table) (with_cols : List String) : Table :=
  _remove_duplicates
    (table.map (fun row => rowMerge row (rowOfList (with_cols.map (fun c => (c, Value.null))))))

/-- `union` (`operations.py`): pad each table with the columns it lacks,
concatenate, deduplicate.  Column introspection of an empty operand raises. -/
def union (left right : Table) : Except String Table :=
  match _columns_in_table left with
  | Except.error e => Except.error e
  | Except.ok left_cols =>
    match _columns_in_table right with
    | Except.error e => Except.error e
    | Except.ok right_cols =>
      Except.ok (_remove_duplicates
        (_pad_table left (right_cols.filter (fun c => decide (c ∉ left_cols))) ++
         _pad_table right (left_cols.filter (fun c => decide (c ∉ right_cols)))))

/-- `difference` (`operations.py`): rows of `left` not structurally present
in `right`; no schema check of any kind. -/
def difference (left right : Table) : Table :=
  _remove_duplicates (left.filter (fun record => decide (record ∉ right)))

/-- `intersection` (`operations.py`): literally
`difference(left, difference(left, right))`, deduplicated once more. -/
def intersection (left right : Table) : Table :=
  _remove_duplicates (difference left (difference left right))

/-- Pure form of the projection comprehension, defined for records that
have every requested column (missing columns read as `None`, a case ruled
out by the hypotheses under which it is used). -/
def projRowP (record : Row) : List String → Row → Row
  | [], acc => acc
  | c :: rest, acc => projRowP record rest (rowInsert acc c ((rowFind? record c).getD Value.null))

/-- Drop a leading character prefix, if present. -/
def dropPre : List Char → List Char → Option (List Char)
  | [], s => some s
  | _ :: _, [] => none
  | c :: p, d :: s => if d = c then dropPre p s else none

/-- Strip `"{p}."` from the front of a key, if present. -/
def stripPrefixKey (p : String) (k : String) : Option String :=
  match dropPre (p.data ++ ['.']) k.data with
  | some rest => some (String.mk rest)
  | none => none

/-- Written from the spec's words (§4.6): recover one side of a "prefixed
merged row" by keeping the keys carrying the given prefix and stripping it,
so that a two-row join condition can be "adapted to operate on the prefixed
merged row". -/
def rowHalf (p : String) (m : Row) : Row :=
  rowOfList (m.filterMap (fun kv =>
    match stripPrefixKey p kv.1 with
    | some k => some (k, kv.2)
    | none => none))

/-- Written from the spec's words (§4.6): the adaptation `c'` of a
two-argument join condition `c`, reading the left and right halves of the
prefixed merged row. -/
def adaptCond (c : Row → Row → Bool) : Row → Bool :=
  fun m => c (rowHalf "left" m) (rowHalf "right" m)

/-- Invariant of the embedded string sets: strictly sorted in `strLt`. -/
def SortedStr (s : List String) : Prop := List.Pairwise (fun a b => strLt a b = true) s

/-! ### The string order underlying the canonical form -/

theorem stringExt {a b : String} (h : a.data = b.data) : a = b := by
  cases a; cases b; exact congrArg String.mk h

theorem charsLt_irrefl : ∀ l, charsLt l l = false
  | [] => rfl
  | a :: as => by simp [charsLt, lt_self_iff_false, charsLt_irrefl as]

theorem charsLt_asymm : ∀ {l₁ l₂ : List Char}, charsLt l₁ l₂ = true → charsLt l₂ l₁ = false := by
  intro l₁
  induction l₁ with
  | nil =>
    intro l₂ h
    cases l₂ with
    | nil => simpa [charsLt] using h
    | cons b bs => rfl
  | cons a as ih =>
    intro l₂ h
    cases l₂ with
    | nil => simpa [charsLt] using h
    | cons b bs =>
      simp only [charsLt] at h ⊢
      by_cases h1 : a < b
      · rw [if_neg (lt_asymm h1), if_pos h1]
      · rw [if_neg h1] at h
        by_cases h2 : b < a
        · rw [if_pos h2] at h; exact absurd h (by simp)
        · rw [if_neg h2] at h
          rw [if_neg h2, if_neg h1]
          exact ih h

theorem charsLt_trans : ∀ {l₁ l₂ l₃ : List Char},
    charsLt l₁ l₂ = true → charsLt l₂ l₃ = true → charsLt l₁ l₃ = true := by
  intro l₁
  induction l₁ with
  | nil =>
    intro l₂ l₃ h₁ h₂
    cases l₂ with
    | nil => simpa [charsLt] using h₁
    | cons b bs =>
      cases l₃ with
      | nil => simpa [charsLt] using h₂
      | cons c cs => rfl
  | cons a as ih =>
    intro l₂ l₃ h₁ h₂
    cases l₂ with
    | nil => simpa [charsLt] using h₁
    | cons b bs =>
      cases l₃ with
      | nil => simpa [charsLt] using h₂
      | cons c cs =>
        simp only [charsLt] at h₁ h₂ ⊢
        by_cases hab : a < b
        · by_cases hbc : b < c
          · rw [if_pos (lt_trans hab hbc)]
          · rw [if_neg hbc] at h₂
            by_cases hcb : c < b
            · rw [if_pos hcb] at h₂; exact absurd h₂ (by simp)
            · have : b = c := le_antisymm (not_lt.mp hcb) (not_lt.mp hbc)
              subst this
              rw [if_pos hab]
        · rw [if_neg hab] at h₁
          by_cases hba : b < a
          · rw [if_pos hba] at h₁; exact absurd h₁ (by simp)
          · rw [if_neg hba] at h₁
            have hab' : a = b := le_antisymm (not_lt.mp hba) (not_lt.mp hab)
            subst hab'
            by_cases hac : a < c
            · rw [if_pos hac]
            · rw [if_neg hac] at h₂ ⊢
              by_cases hca : c < a
              · rw [if_pos hca] at h₂; exact absurd h₂ (by simp)
              · rw [if_neg hca] at h₂ ⊢
                exact ih h₁ h₂

theorem charsLt_eq_of : ∀ {l₁ l₂ : List Char},
    charsLt l₁ l₂ = false → charsLt l₂ l₁ = false → l₁ = l₂ := by
  intro l₁
  induction l₁ with
  | nil =>
    intro l₂ h₁ _
    cases l₂ with
    | nil => rfl
    | cons b bs => simp [charsLt] at h₁
  | cons a as ih =>
    intro l₂ h₁ h₂
    cases l₂ with
    | nil => simp [charsLt] at h₂
    | cons b bs =>
      simp only [charsLt] at h₁ h₂
      by_cases hab : a < b
      · rw [if_pos hab] at h₁; exact absurd h₁ (by simp)
      · by_cases hba : b < a
        · rw [if_pos hba] at h₂; exact absurd h₂ (by simp)
        · have hab' : a = b := le_antisymm (not_lt.mp hba) (not_lt.mp hab)
          subst hab'
          rw [if_neg hab, if_neg hab] at h₁
          rw [if_neg hab, if_neg hab] at h₂
          rw [ih h₁ h₂]

theorem strLt_irrefl (s : String) : strLt s s = false := charsLt_irrefl _

theorem strLt_asymm {a b : String} (h : strLt a b = true) : strLt b a = false := charsLt_asymm h

theorem strLt_trans {a b c : String} (h₁ : strLt a b = true) (h₂ : strLt b c = true) :
    strLt a c = true := charsLt_trans h₁ h₂

theorem strLt_eq_of {a b : String} (h₁ : strLt a b = false) (h₂ : strLt b a = false) : a = b :=
  stringExt (charsLt_eq_of h₁ h₂)

theorem strLt_ne {a b : String} (h : strLt a b = true) : a ≠ b := by
  intro he
  subst he
  rw [strLt_irrefl] at h
  exact absurd h (by simp)

theorem strLt_flip {a b : String} (hne : a ≠ b) (h : strLt a b = false) : strLt b a = true := by
  cases hba : strLt b a with
  | true => rfl
  | false => exact absurd (strLt_eq_of h hba) hne

/-! ### Dictionary (row) lemmas -/

theorem rowFind?_insert (r : Row) (k : String) (v : Value) (k' : String) :
    rowFind? (rowInsert r k v) k' = if k' = k then some v else rowFind? r k' := by
  induction r with
  | nil => by_cases h : k' = k <;> simp [rowInsert, rowFind?, h]
  | cons kv rest ih =>
    obtain ⟨k₀, v₀⟩ := kv
    by_cases h1 : k = k₀
    · subst h1
      by_cases h : k' = k <;> simp [rowInsert, rowFind?, h]
    · by_cases h2 : strLt k k₀ = true
      · simp only [rowInsert, if_neg h1, if_pos h2, rowFind?]
      · simp only [rowInsert, if_neg h1, if_neg h2, rowFind?]
        by_cases h0 : k' = k₀
        · have hk : ¬ k' = k := fun hk => h1 (by rw [← hk]; exact h0)
          have hk0 : ¬ k₀ = k := fun he => h1 he.symm
          simp [h0, hk, hk0]
        · simp [h0, ih]

theorem mem_rowInsert {x : String × Value} :
    ∀ {r : Row} {k : String} {v : Value}, x ∈ rowInsert r k v → x = (k, v) ∨ x ∈ r := by
  intro r
  induction r with
  | nil => intro k v h; simpa [rowInsert] using h
  | cons kv rest ih =>
    intro k v h
    obtain ⟨k₀, v₀⟩ := kv
    by_cases h1 : k = k₀
    · subst h1
      simp only [rowInsert, if_pos rfl] at h
      rcases List.mem_cons.mp h with h | h
      · exact Or.inl h
      · exact Or.inr (List.mem_cons_of_mem _ h)
    · by_cases h2 : strLt k k₀ = true
      · simp only [rowInsert, if_neg h1, if_pos h2] at h
        rcases List.mem_cons.mp h with h | h
        · exact Or.inl h
        · exact Or.inr h
      · simp only [rowInsert, if_neg h1, if_neg h2] at h
        rcases List.mem_cons.mp h with h | h
        · exact Or.inr (List.mem_cons.mpr (Or.inl h))
        · rcases ih h with h | h
          · exact Or.inl h
          · exact Or.inr (List.mem_cons_of_mem _ h)

theorem rowCanon_nil : RowCanon [] := List.Pairwise.nil

theorem rowCanon_insert {r : Row} {k : String} {v : Value} (h : RowCanon r) :
    RowCanon (rowInsert r k v) := by
  induction r with
  | nil => exact List.pairwise_singleton _ _
  | cons kv rest ih =>
    obtain ⟨k₀, v₀⟩ := kv
    rw [RowCanon, List.pairwise_cons] at h
    by_cases h1 : k = k₀
    · subst h1
      simp only [rowInsert, if_pos rfl]
      exact List.Pairwise.cons h.1 h.2
    · by_cases h2 : strLt k k₀ = true
      · simp only [rowInsert, if_neg h1, if_pos h2]
        refine List.Pairwise.cons ?_ (List.Pairwise.cons h.1 h.2)
        intro a ha
        rcases List.mem_cons.mp ha with rfl | ha'
        · exact h2
        · exact strLt_trans h2 (h.1 a ha')
      · simp only [rowInsert, if_neg h1, if_neg h2]
        refine List.Pairwise.cons ?_ (ih h.2)
        intro a ha
        have h2' : strLt k k₀ = false := by simpa using h2
        rcases mem_rowInsert ha with rfl | ha'
        · exact strLt_flip h1 h2'
        · exact h.1 a ha'

theorem rowFind?_foldl (l : List (String × Value)) (r : Row) (k : String) :
    rowFind? (l.foldl (fun acc kv => rowInsert acc kv.1 kv.2) r) k =
      match rowFindLast? l k with
      | some v => some v
      | none => rowFind? r k := by
  induction l generalizing r with
  | nil => simp [rowFindLast?]
  | cons kv rest ih =>
    obtain ⟨k₀, v₀⟩ := kv
    rw [List.foldl_cons, ih]
    simp only [rowFindLast?]
    cases hrec : rowFindLast? rest k with
    | some v => rfl
    | none =>
      rw [rowFind?_insert]
      by_cases h : k = k₀ <;> simp [h]

theorem rowFind?_merge (a b : Row) (k : String) :
    rowFind? (rowMerge a b) k =
      match rowFindLast? b k with
      | some v => some v
      | none => rowFind? a k := rowFind?_foldl b a k

theorem rowFind?_ofList (l : List (String × Value)) (k : String) :
    rowFind? (rowOfList l) k = rowFindLast? l k := by
  rw [rowOfList, rowFind?_merge]
  cases rowFindLast? l k <;> rfl

theorem rowCanon_foldl (l : List (String × Value)) {r : Row} (h : RowCanon r) :
    RowCanon (l.foldl (fun acc kv => rowInsert acc kv.1 kv.2) r) := by
  induction l generalizing r with
  | nil => exact h
  | cons kv rest ih => exact ih (rowCanon_insert h)

theorem rowCanon_merge {a : Row} (b : Row) (h : RowCanon a) : RowCanon (rowMerge a b) :=
  rowCanon_foldl b h

theorem rowCanon_ofList (l : List (String × Value)) : RowCanon (rowOfList l) :=
  rowCanon_merge l rowCanon_nil

theorem rowFind?_eq_none_of {r : Row} {k : String} (h : ∀ kv ∈ r, k ≠ kv.1) :
    rowFind? r k = none := by
  induction r with
  | nil => rfl
  | cons kv rest ih =>
    obtain ⟨k₀, v₀⟩ := kv
    simp only [rowFind?]
    rw [if_neg (h (k₀, v₀) (List.mem_cons_self _ _))]
    exact ih (fun kv hkv => h kv (List.mem_cons_of_mem _ hkv))

theorem rowFindLast?_eq_none_of {r : Row} {k : String} (h : ∀ kv ∈ r, k ≠ kv.1) :
    rowFindLast? r k = none := by
  induction r with
  | nil => rfl
  | cons kv rest ih =>
    obtain ⟨k₀, v₀⟩ := kv
    simp only [rowFindLast?]
    rw [ih (fun kv hkv => h kv (List.mem_cons_of_mem _ hkv))]
    exact if_neg (h (k₀, v₀) (List.mem_cons_self _ _))

theorem rowFind?_isSome_iff {r : Row} {k : String} :
    (rowFind? r k).isSome = true ↔ k ∈ rowKeys r := by
  induction r with
  | nil => simp [rowFind?, rowKeys]
  | cons kv rest ih =>
    obtain ⟨k₀, v₀⟩ := kv
    by_cases h : k = k₀ <;> simp [rowFind?, rowKeys, h, ih]

theorem keysNodup_of_canon {r : Row} (h : RowCanon r) : (rowKeys r).Nodup := by
  rw [rowKeys, List.Nodup, List.pairwise_map]
  exact h.imp (fun hab => strLt_ne hab)

theorem rowFindLast?_eq_rowFind? {r : Row} (h : (rowKeys r).Nodup) (k : String) :
    rowFindLast? r k = rowFind? r k := by
  induction r with
  | nil => rfl
  | cons kv rest ih =>
    obtain ⟨k₀, v₀⟩ := kv
    rw [rowKeys] at h
    simp only [List.map_cons, List.nodup_cons] at h
    simp only [rowFindLast?, rowFind?]
    by_cases hk : k = k₀
    · subst hk
      rw [ih h.2, rowFind?_eq_none_of, if_pos rfl]
      intro kv hkv hkeq
      exact h.1 (hkeq ▸ List.mem_map_of_mem Prod.fst hkv)
    · rw [ih h.2]
      simp only [if_neg hk]
      cases rowFind? rest k <;> rfl

theorem mem_keys_strLt {r : Row} {k₀ k : String} (hp : ∀ a ∈ r, strLt k₀ a.1 = true)
    (h : k ∈ rowKeys r) : strLt k₀ k = true := by
  rw [rowKeys, List.mem_map] at h
  obtain ⟨a, ha, rfl⟩ := h
  exact hp a ha

theorem rowExt : ∀ {r₁ r₂ : Row}, RowCanon r₁ → RowCanon r₂ →
    (∀ k, rowFind? r₁ k = rowFind? r₂ k) → r₁ = r₂ := by
  intro r₁
  induction r₁ with
  | nil =>
    intro r₂ _ _ h
    cases r₂ with
    | nil => rfl
    | cons kv t =>
      obtain ⟨k, v⟩ := kv
      have := h k
      simp [rowFind?] at this
  | cons kv t₁ ih =>
    intro r₂ hc₁ hc₂ h
    obtain ⟨k₁, v₁⟩ := kv
    cases r₂ with
    | nil =>
      have := h k₁
      simp [rowFind?] at this
    | cons kv₂ t₂ =>
      obtain ⟨k₂, v₂⟩ := kv₂
      rw [RowCanon, List.pairwise_cons] at hc₁ hc₂
      by_cases h12 : k₁ = k₂
      · subst h12
        have hv : v₁ = v₂ := by
          have := h k₁
          simpa [rowFind?] using this
        subst hv
        have htails : ∀ k, rowFind? t₁ k = rowFind? t₂ k := by
          intro k
          by_cases hk : k = k₁
          · subst hk
            rw [rowFind?_eq_none_of, rowFind?_eq_none_of]
            · intro kv hkv
              exact strLt_ne (hc₂.1 kv hkv)
            · intro kv hkv
              exact strLt_ne (hc₁.1 kv hkv)
          · have := h k
            simpa [rowFind?, hk] using this
        rw [ih hc₁.2 hc₂.2 htails]
      · exfalso
        have h₁ := h k₁
        simp only [rowFind?, if_pos rfl, if_true, if_neg h12] at h₁
        have hk₁ : k₁ ∈ rowKeys t₂ := by
          rw [← rowFind?_isSome_iff, ← h₁]
          rfl
        have h₂ := h k₂
        simp only [rowFind?, if_pos rfl, if_true,
          if_neg (fun he : k₂ = k₁ => h12 he.symm)] at h₂
        have hk₂ : k₂ ∈ rowKeys t₁ := by
          rw [← rowFind?_isSome_iff, h₂]
          rfl
        have l₁ : strLt k₂ k₁ = true := mem_keys_strLt hc₂.1 hk₁
        have l₂ : strLt k₁ k₂ = true := mem_keys_strLt hc₁.1 hk₂
        rw [strLt_asymm l₂] at l₁
        exact absurd l₁ (by simp)

/-! ### Deduplication lemmas -/

theorem mem_dedupAcc {r : Row} : ∀ {t seen : Table}, r ∈ dedupAcc seen t ↔ r ∈ t ∧ r ∉ seen := by
  intro t
  induction t with
  | nil => intro seen; simp [dedupAcc]
  | cons r₀ rest ih =>
    intro seen
    by_cases h : r₀ ∈ seen
    · rw [dedupAcc, if_pos h, ih]
      constructor
      · rintro ⟨hr, hs⟩
        exact ⟨List.mem_cons_of_mem _ hr, hs⟩
      · rintro ⟨hr, hs⟩
        rcases List.mem_cons.mp hr with rfl | hr'
        · exact absurd h hs
        · exact ⟨hr', hs⟩
    · rw [dedupAcc, if_neg h]
      constructor
      · intro hm
        rcases List.mem_cons.mp hm with rfl | hm'
        · exact ⟨List.mem_cons_self _ _, h⟩
        · have := ih.mp hm'
          refine ⟨List.mem_cons_of_mem _ this.1, fun hs => this.2 (List.mem_cons_of_mem _ hs)⟩
      · rintro ⟨hr, hs⟩
        rcases List.mem_cons.mp hr with rfl | hr'
        · exact List.mem_cons_self _ _
        · by_cases hrr : r = r₀
          · subst hrr; exact List.mem_cons_self _ _
          · exact List.mem_cons_of_mem _
              (ih.mpr ⟨hr', fun hm => (List.mem_cons.mp hm).elim hrr hs⟩)

theorem mem_remove_duplicates {r : Row} {t : Table} : r ∈ _remove_duplicates t ↔ r ∈ t := by
  rw [_remove_duplicates, mem_dedupAcc]
  simp

theorem nodup_dedupAcc : ∀ (t seen : Table), (dedupAcc seen t).Nodup := by
  intro t
  induction t with
  | nil => intro seen; exact List.nodup_nil
  | cons r₀ rest ih =>
    intro seen
    by_cases h : r₀ ∈ seen
    · rw [dedupAcc, if_pos h]; exact ih seen
    · rw [dedupAcc, if_neg h, List.nodup_cons]
      refine ⟨fun hm => ?_, ih _⟩
      exact (mem_dedupAcc.mp hm).2 (List.mem_cons_self _ _)

theorem nodup_remove_duplicates (t : Table) : (_remove_duplicates t).Nodup := nodup_dedupAcc t []

theorem dedupAcc_eq_self : ∀ {t seen : Table}, t.Nodup → (∀ r ∈ t, r ∉ seen) →
    dedupAcc seen t = t := by
  intro t
  induction t with
  | nil => intro seen _ _; rfl
  | cons r₀ rest ih =>
    intro seen hn hs
    rw [List.nodup_cons] at hn
    rw [dedupAcc, if_neg (hs r₀ (List.mem_cons_self _ _))]
    congr 1
    refine ih hn.2 (fun r hr hm => ?_)
    rcases List.mem_cons.mp hm with rfl | hm'
    · exact hn.1 hr
    · exact hs r (List.mem_cons_of_mem _ hr) hm'

theorem remove_duplicates_eq_self {t : Table} (h : t.Nodup) : _remove_duplicates t = t :=
  dedupAcc_eq_self h (by simp)

theorem remove_duplicates_idem (t : Table) :
    _remove_duplicates (_remove_duplicates t) = _remove_duplicates t :=
  remove_duplicates_eq_self (nodup_remove_duplicates t)

theorem dedupAcc_filter (q : Row → Bool) : ∀ {t seen seen' : Table},
    (∀ x, x ∈ seen' ↔ (x ∈ seen ∧ q x = true)) →
    dedupAcc seen' (t.filter q) = (dedupAcc seen t).filter q := by
  intro t
  induction t with
  | nil => intro seen seen' _; rfl
  | cons r₀ rest ih =>
    intro seen seen' hinv
    by_cases hq : q r₀ = true
    · by_cases hs : r₀ ∈ seen
      · rw [List.filter_cons_of_pos hq, dedupAcc, if_pos (hinv r₀ |>.mpr ⟨hs, hq⟩),
          dedupAcc, if_pos hs]
        exact ih hinv
      · have hs' : r₀ ∉ seen' := fun hm => hs ((hinv r₀).mp hm).1
        rw [List.filter_cons_of_pos hq, dedupAcc, if_neg hs', dedupAcc, if_neg hs,
          List.filter_cons_of_pos hq]
        congr 1
        refine ih (fun x => ?_)
        constructor
        · intro hm
          rcases List.mem_cons.mp hm with rfl | hm'
          · exact ⟨List.mem_cons_self _ _, hq⟩
          · have := (hinv x).mp hm'
            exact ⟨List.mem_cons_of_mem _ this.1, this.2⟩
        · rintro ⟨hm, hqx⟩
          rcases List.mem_cons.mp hm with rfl | hm'
          · exact List.mem_cons_self _ _
          · exact List.mem_cons_of_mem _ ((hinv x).mpr ⟨hm', hqx⟩)
    · rw [List.filter_cons_of_neg hq]
      by_cases hs : r₀ ∈ seen
      · rw [dedupAcc, if_pos hs]
        exact ih hinv
      · rw [dedupAcc, if_neg hs, List.filter_cons_of_neg hq]
        refine ih (fun x => ?_)
        constructor
        · intro hm
          have := (hinv x).mp hm
          exact ⟨List.mem_cons_of_mem _ this.1, this.2⟩
        · rintro ⟨hm, hqx⟩
          rcases List.mem_cons.mp hm with rfl | hm'
          · exact absurd hqx (by simp [hq])
          · exact (hinv x).mpr ⟨hm', hqx⟩

theorem remove_duplicates_filter (q : Row → Bool) (t : Table) :
    _remove_duplicates (t.filter q) = (_remove_duplicates t).filter q :=
  dedupAcc_filter q (by simp)

/-! ### Column-set (Python string set) lemmas -/

theorem mem_insertSortedStr {a k : String} : ∀ {s : List String},
    a ∈ insertSortedStr s k ↔ a = k ∨ a ∈ s := by
  intro s
  induction s with
  | nil => simp [insertSortedStr]
  | cons k' rest ih =>
    by_cases h1 : k = k'
    · subst h1
      rw [insertSortedStr, if_pos rfl]
      simp only [List.mem_cons]
      tauto
    · by_cases h2 : strLt k k' = true
      · rw [insertSortedStr, if_neg h1, if_pos h2]
        simp [List.mem_cons]
      · rw [insertSortedStr, if_neg h1, if_neg (by simp [h2])]
        simp only [List.mem_cons, ih]
        tauto

theorem sortedStr_insertSortedStr {k : String} :
    ∀ {s : List String}, SortedStr s → SortedStr (insertSortedStr s k) := by
  intro s
  induction s with
  | nil => intro _; exact List.pairwise_singleton _ _
  | cons k' rest ih =>
    intro h
    rw [SortedStr, List.pairwise_cons] at h
    by_cases h1 : k = k'
    · subst h1
      rw [insertSortedStr, if_pos rfl]
      exact List.Pairwise.cons h.1 h.2
    · by_cases h2 : strLt k k' = true
      · rw [insertSortedStr, if_neg h1, if_pos h2]
        refine List.Pairwise.cons ?_ (List.Pairwise.cons h.1 h.2)
        intro a ha
        rcases List.mem_cons.mp ha with rfl | ha'
        · exact h2
        · exact strLt_trans h2 (h.1 a ha')
      · rw [insertSortedStr, if_neg h1, if_neg (by simp [h2])]
        refine List.Pairwise.cons ?_ (ih h.2)
        intro a ha
        have h2' : strLt k k' = false := by simpa using h2
        rcases mem_insertSortedStr.mp ha with rfl | ha'
        · exact strLt_flip h1 h2'
        · exact h.1 a ha'

theorem mem_foldl_insertSortedStr {a : String} :
    ∀ {l s : List String}, a ∈ l.foldl insertSortedStr s ↔ a ∈ s ∨ a ∈ l := by
  intro l
  induction l with
  | nil => intro s; simp
  | cons k rest ih =>
    intro s
    rw [List.foldl_cons, ih, mem_insertSortedStr]
    simp only [List.mem_cons]
    tauto

theorem mem_listToSet {a : String} {l : List String} : a ∈ listToSet l ↔ a ∈ l := by
  rw [listToSet, mem_foldl_insertSortedStr]
  simp

theorem sortedStr_foldl : ∀ (l : List String) {s : List String}, SortedStr s →
    SortedStr (l.foldl insertSortedStr s) := by
  intro l
  induction l with
  | nil => intro s h; exact h
  | cons k rest ih => intro s h; exact ih (sortedStr_insertSortedStr h)

theorem sortedStr_listToSet (l : List String) : SortedStr (listToSet l) :=
  sortedStr_foldl l List.Pairwise.nil

theorem insertSortedStr_eq_of_mem {k : String} :
    ∀ {s : List String}, SortedStr s → k ∈ s → insertSortedStr s k = s := by
  intro s
  induction s with
  | nil => intro _ h; exact absurd h (List.not_mem_nil _)
  | cons k' rest ih =>
    intro hs hk
    rw [SortedStr, List.pairwise_cons] at hs
    by_cases h1 : k = k'
    · rw [insertSortedStr, if_pos h1]
    · have hk' : k ∈ rest := (List.mem_cons.mp hk).resolve_left h1
      have hlt : strLt k' k = true := hs.1 k hk'
      rw [insertSortedStr, if_neg h1, if_neg (by simp [strLt_asymm hlt]), ih hs.2 hk']

theorem foldl_insertSortedStr_eq : ∀ (l : List String) {s : List String}, SortedStr s →
    (∀ x ∈ l, x ∈ s) → l.foldl insertSortedStr s = s := by
  intro l
  induction l with
  | nil => intro s _ _; rfl
  | cons k rest ih =>
    intro s hs h
    rw [List.foldl_cons, insertSortedStr_eq_of_mem hs (h k (List.mem_cons_self _ _))]
    exact ih hs (fun x hx => h x (List.mem_cons_of_mem _ hx))

theorem sortedStrExt : ∀ {s₁ s₂ : List String}, SortedStr s₁ → SortedStr s₂ →
    (∀ x, x ∈ s₁ ↔ x ∈ s₂) → s₁ = s₂ := by
  intro s₁
  induction s₁ with
  | nil =>
    intro s₂ _ _ h
    cases s₂ with
    | nil => rfl
    | cons a₂ t₂ => exact absurd ((h a₂).mpr (List.mem_cons_self _ _)) (List.not_mem_nil _)
  | cons a₁ t₁ ih =>
    intro s₂ hc₁ hc₂ h
    cases s₂ with
    | nil => exact absurd ((h a₁).mp (List.mem_cons_self _ _)) (List.not_mem_nil _)
    | cons a₂ t₂ =>
      rw [SortedStr, List.pairwise_cons] at hc₁ hc₂
      by_cases h12 : a₁ = a₂
      · subst h12
        have htails : ∀ x, x ∈ t₁ ↔ x ∈ t₂ := by
          intro x
          constructor
          · intro hx
            have hne : x ≠ a₁ := fun he => strLt_ne (hc₁.1 x hx) he.symm
            exact (List.mem_cons.mp ((h x).mp (List.mem_cons_of_mem _ hx))).resolve_left hne
          · intro hx
            have hne : x ≠ a₁ := fun he => strLt_ne (hc₂.1 x hx) he.symm
            exact (List.mem_cons.mp ((h x).mpr (List.mem_cons_of_mem _ hx))).resolve_left hne
        rw [ih hc₁.2 hc₂.2 htails]
      · exfalso
        have h₁ : a₁ ∈ t₂ :=
          (List.mem_cons.mp ((h a₁).mp (List.mem_cons_self _ _))).resolve_left h12
        have h₂ : a₂ ∈ t₁ :=
          (List.mem_cons.mp ((h a₂).mpr (List.mem_cons_self _ _))).resolve_left
            (fun he => h12 he.symm)
        have l₁ := hc₂.1 a₁ h₁
        have l₂ := hc₁.1 a₂ h₂
        rw [strLt_asymm l₂] at l₁
        exact absurd l₁ (by simp)

theorem mem_keysUnion {c : String} : ∀ {T : Table}, c ∈ keysUnion T ↔ ∃ r ∈ T, c ∈ rowKeys r := by
  intro T
  induction T with
  | nil => simp [keysUnion]
  | cons r rest ih =>
    rw [keysUnion, List.mem_append, ih]
    constructor
    · rintro (h | ⟨r', hr', hc⟩)
      · exact ⟨r, List.mem_cons_self _ _, h⟩
      · exact ⟨r', List.mem_cons_of_mem _ hr', hc⟩
    · rintro ⟨r', hr', hc⟩
      rcases List.mem_cons.mp hr' with rfl | hr''
      · exact Or.inl hc
      · exact Or.inr ⟨r', hr'', hc⟩

theorem columns_of_homog {T : Table} {S : List String} (hne : T ≠ [])
    (h : ∀ r ∈ T, rowKeys r = S) :
    _columns_in_table T = Except.ok (listToSet S) := by
  cases T with
  | nil => exact absurd rfl hne
  | cons r rest =>
    have hred : _columns_in_table (r :: rest) =
        Except.ok (listToSet (keysUnion (r :: rest))) := rfl
    rw [hred]
    congr 1
    apply sortedStrExt (sortedStr_listToSet _) (sortedStr_listToSet _)
    intro x
    rw [mem_listToSet, mem_listToSet, mem_keysUnion]
    constructor
    · rintro ⟨r', hr', hx⟩
      rw [h r' hr'] at hx
      exact hx
    · intro hx
      exact ⟨r, List.mem_cons_self _ _, (h r (List.mem_cons_self _ _)) ▸ hx⟩

/-! ### Error-propagation lemmas for the fallible comprehensions -/

theorem mapME_ok_of {f : Row → Except String Row} {g : Row → Row} :
    ∀ {T : Table}, (∀ r ∈ T, f r = Except.ok (g r)) → mapME f T = Except.ok (T.map g) := by
  intro T
  induction T with
  | nil => intro _; rfl
  | cons r rest ih =>
    intro h
    simp only [mapME, h r (List.mem_cons_self _ _),
      ih (fun r' hr' => h r' (List.mem_cons_of_mem _ hr')), List.map_cons]

theorem mapME_error_of {f : Row → Except String Row} {r : Row}
    (he : ∃ e, f r = Except.error e) :
    ∀ {T : Table}, r ∈ T → ∃ e', mapME f T = Except.error e' := by
  intro T
  induction T with
  | nil => intro h; exact absurd h (List.not_mem_nil _)
  | cons r₀ rest ih =>
    intro hr
    cases hf : f r₀ with
    | error e => exact ⟨e, by simp [mapME, hf]⟩
    | ok r' =>
      rcases List.mem_cons.mp hr with rfl | hr'
      · obtain ⟨e, hfe⟩ := he
        rw [hf] at hfe
        exact absurd hfe (by simp)
      · obtain ⟨e', hrec⟩ := ih hr'
        exact ⟨e', by simp [mapME, hf, hrec]⟩

theorem projectRowE_ok {record : Row} : ∀ (cols : List String) (acc : Row),
    (∀ c ∈ cols, (rowFind? record c).isSome = true) →
    projectRowE record cols acc = Except.ok (projRowP record cols acc) := by
  intro cols
  induction cols with
  | nil => intro acc _; rfl
  | cons c rest ih =>
    intro acc h
    have hc := h c (List.mem_cons_self _ _)
    cases hf : rowFind? record c with
    | none => rw [hf] at hc; exact absurd hc (by simp)
    | some v =>
      simp only [projectRowE, hf]
      rw [ih _ (fun c' h' => h c' (List.mem_cons_of_mem _ h'))]
      simp only [projRowP, hf, Option.getD_some]

theorem projectRowE_error {record : Row} : ∀ {cols : List String} (acc : Row),
    (∃ c ∈ cols, rowFind? record c = none) →
    ∃ e, projectRowE record cols acc = Except.error e := by
  intro cols
  induction cols with
  | nil => intro acc h; simp at h
  | cons c₀ rest ih =>
    intro acc h
    cases hf : rowFind? record c₀ with
    | none => exact ⟨"KeyError: " ++ c₀, by simp [projectRowE, hf]⟩
    | some v =>
      obtain ⟨c, hc, hnone⟩ := h
      rcases List.mem_cons.mp hc with rfl | hc'
      · rw [hf] at hnone; exact absurd hnone (by simp)
      · obtain ⟨e, he⟩ := ih (rowInsert acc c₀ v) ⟨c, hc', hnone⟩
        exact ⟨e, by simp [projectRowE, hf, he]⟩

theorem projRowP_find? (record : Row) : ∀ (cols : List String) (acc : Row) (k : String),
    rowFind? (projRowP record cols acc) k =
      if k ∈ cols then some ((rowFind? record k).getD Value.null) else rowFind? acc k := by
  intro cols
  induction cols with
  | nil => intro acc k; simp [projRowP]
  | cons c rest ih =>
    intro acc k
    rw [projRowP, ih]
    by_cases hk : k ∈ rest
    · rw [if_pos hk, if_pos (List.mem_cons_of_mem _ hk)]
    · rw [if_neg hk, rowFind?_insert]
      by_cases hkc : k = c
      · subst hkc
        rw [if_pos rfl, if_pos (List.mem_cons_self _ _)]
      · rw [if_neg hkc, if_neg (fun hm => (List.mem_cons.mp hm).elim hkc hk)]

theorem projRowP_canon (record : Row) : ∀ (cols : List String) {acc : Row},
    RowCanon acc → RowCanon (projRowP record cols acc) := by
  intro cols
  induction cols with
  | nil => intro acc h; exact h
  | cons c rest ih => intro acc h; exact ih (rowCanon_insert h)

theorem renameRowE_ok {m : List (String × String)} {record : Row} :
    ∀ (cols : List String) (acc : Row),
    (∀ c ∈ cols, (rowFind? record c).isSome = true) →
    ∃ out, renameRowE m record cols acc = Except.ok out := by
  intro cols
  induction cols with
  | nil => intro acc _; exact ⟨acc, rfl⟩
  | cons c rest ih =>
    intro acc h
    have hc := h c (List.mem_cons_self _ _)
    cases hf : rowFind? record c with
    | none => rw [hf] at hc; exact absurd hc (by simp)
    | some v =>
      obtain ⟨out, hout⟩ := ih (rowInsert acc (dictGetD m c) v)
        (fun c' h' => h c' (List.mem_cons_of_mem _ h'))
      exact ⟨out, by simp [renameRowE, hf, hout]⟩

theorem renameRowE_error {m : List (String × String)} {record : Row} :
    ∀ {cols : List String} (acc : Row),
    (∃ c ∈ cols, rowFind? record c = none) →
    ∃ e, renameRowE m record cols acc = Except.error e := by
  intro cols
  induction cols with
  | nil => intro acc h; simp at h
  | cons c₀ rest ih =>
    intro acc h
    cases hf : rowFind? record c₀ with
    | none => exact ⟨"KeyError: " ++ c₀, by simp [renameRowE, hf]⟩
    | some v =>
      obtain ⟨c, hc, hnone⟩ := h
      rcases List.mem_cons.mp hc with rfl | hc'
      · rw [hf] at hnone; exact absurd hnone (by simp)
      · obtain ⟨e, he⟩ := ih (rowInsert acc (dictGetD m c₀) v) ⟨c, hc', hnone⟩
        exact ⟨e, by simp [renameRowE, hf, he]⟩

/-! ### Cartesian-product pair list -/

theorem mem_pairsOf {a b : Row} : ∀ {L R : Table}, (a, b) ∈ pairsOf L R ↔ a ∈ L ∧ b ∈ R := by
  intro L
  induction L with
  | nil => intro R; simp [pairsOf]
  | cons rl rest ih =>
    intro R
    rw [pairsOf, List.mem_append, ih]
    constructor
    · rintro (hm | ⟨h1, h2⟩)
      · rw [List.mem_map] at hm
        obtain ⟨rr, hrr, heq⟩ := hm
        cases heq
        exact ⟨List.mem_cons_self _ _, hrr⟩
      · exact ⟨List.mem_cons_of_mem _ h1, h2⟩
    · rintro ⟨h1, h2⟩
      rcases List.mem_cons.mp h1 with rfl | h1'
      · exact Or.inl (List.mem_map.mpr ⟨b, h2, rfl⟩)
      · exact Or.inr ⟨h1', h2⟩

theorem pairsOf_map (f g : Row → Row) : ∀ (L R : Table),
    pairsOf (L.map f) (R.map g) = (pairsOf L R).map (fun p => (f p.1, g p.2)) := by
  intro L
  induction L with
  | nil => intro R; rfl
  | cons rl rest ih =>
    intro R
    rw [List.map_cons, pairsOf, pairsOf, ih, List.map_append, List.map_map, List.map_map]
    rfl

/-! ### Membership through the set-theoretic operators -/

theorem mem_difference {r : Row} {L R : Table} : r ∈ difference L R ↔ r ∈ L ∧ r ∉ R := by
  rw [difference, mem_remove_duplicates, List.mem_filter]
  simp

theorem mem_intersection {r : Row} {L R : Table} : r ∈ intersection L R ↔ r ∈ L ∧ r ∈ R := by
  rw [intersection, mem_remove_duplicates, mem_difference, mem_difference]
  constructor
  · rintro ⟨h1, h2⟩
    by_cases hr : r ∈ R
    · exact ⟨h1, hr⟩
    · exact absurd ⟨h1, hr⟩ h2
  · rintro ⟨h1, h2⟩
    exact ⟨h1, fun hd => hd.2 h2⟩

/-! ### Prefixing and unprefixing of merged join rows -/

theorem string_mk_data (s : String) : String.mk s.data = s := by cases s; rfl

theorem dropPre_append : ∀ (l s : List Char), dropPre l (l ++ s) = some s := by
  intro l
  induction l with
  | nil => intro s; rfl
  | cons c p ih => intro s; simp [dropPre, ih]

theorem dropPre_some : ∀ {l s r : List Char}, dropPre l s = some r → s = l ++ r := by
  intro l
  induction l with
  | nil =>
    intro s r h
    simpa [dropPre] using h
  | cons c p ih =>
    intro s r h
    cases s with
    | nil => simp [dropPre] at h
    | cons d t =>
      rw [dropPre] at h
      by_cases hd : d = c
      · subst hd
        rw [if_pos rfl] at h
        rw [ih h]
        rfl
      · rw [if_neg hd] at h
        exact absurd h (by simp)

theorem stripPrefixKey_prefixKey (p k : String) : stripPrefixKey p (prefixKey p k) = some k := by
  have h1 : (prefixKey p k).data = (p.data ++ ['.']) ++ k.data := by
    simp [prefixKey]
  rw [stripPrefixKey, h1, dropPre_append]

theorem stripPrefixKey_some {p k k' : String} (h : stripPrefixKey p k = some k') :
    k = prefixKey p k' := by
  rw [stripPrefixKey] at h
  cases hd : dropPre (p.data ++ ['.']) k.data with
  | none => rw [hd] at h; exact absurd h (by simp)
  | some rest =>
    rw [hd] at h
    have hk' : String.mk rest = k' := by injection h
    apply stringExt
    rw [dropPre_some hd, ← hk']
    simp [prefixKey]

theorem prefixKey_inj {p k k' : String} (h : prefixKey p k = prefixKey p k') : k = k' := by
  have hd : (p.data ++ ('.' :: k.data)) = (p.data ++ ('.' :: k'.data)) := congrArg String.data h
  have := List.append_cancel_left hd
  injection this with _ h2
  exact stringExt h2

theorem prefixKey_left_ne_right (k k' : String) : prefixKey "left" k ≠ prefixKey "right" k' := by
  intro h
  have hd : ('l' :: ('e' :: 'f' :: 't' :: '.' :: k.data)) =
      ('r' :: ('i' :: 'g' :: 'h' :: 't' :: '.' :: k'.data)) := congrArg String.data h
  injection hd with h1 _
  exact absurd h1 (by decide)

theorem prefixKey_right_ne_left (k k' : String) : prefixKey "right" k ≠ prefixKey "left" k' :=
  fun h => prefixKey_left_ne_right k' k h.symm

theorem rowFindLast?_filterMap_strip (p : String) (k : String) : ∀ (M : Row),
    rowFindLast? (M.filterMap (fun kv =>
      match stripPrefixKey p kv.1 with
      | some k' => some (k', kv.2)
      | none => none)) k = rowFindLast? M (prefixKey p k) := by
  intro M
  induction M with
  | nil => rfl
  | cons kv rest ih =>
    obtain ⟨K, v⟩ := kv
    cases hs : stripPrefixKey p K with
    | some k₀ =>
      rw [List.filterMap_cons]
      simp only [hs]
      simp only [rowFindLast?]
      rw [ih]
      cases rowFindLast? rest (prefixKey p k) with
      | some v' => rfl
      | none =>
        have hK : K = prefixKey p k₀ := stripPrefixKey_some hs
        subst hK
        by_cases hk : k = k₀
        · subst hk; rw [if_pos rfl, if_pos rfl]
        · rw [if_neg hk, if_neg (fun he => hk (prefixKey_inj he))]
    | none =>
      rw [List.filterMap_cons]
      simp only [hs]
      rw [ih]
      simp only [rowFindLast?]
      have hne : prefixKey p k ≠ K := by
        intro he
        rw [← he, stripPrefixKey_prefixKey] at hs
        exact absurd hs (by simp)
      cases rowFindLast? rest (prefixKey p k) with
      | some v' => rfl
      | none => rw [if_neg hne]

theorem rowFindLast?_map_prefixKey (p : String) (k : String) : ∀ (l : Row),
    rowFindLast? (l.map (fun kv => (prefixKey p kv.1, kv.2))) (prefixKey p k) =
      rowFindLast? l k := by
  intro l
  induction l with
  | nil => rfl
  | cons kv rest ih =>
    obtain ⟨K, v⟩ := kv
    simp only [List.map_cons, rowFindLast?]
    rw [ih]
    cases rowFindLast? rest k with
    | some v' => rfl
    | none =>
      by_cases hk : k = K
      · subst hk; rw [if_pos rfl, if_pos rfl]
      · rw [if_neg hk, if_neg (fun he => hk (prefixKey_inj he))]

theorem rowFindLast?_right_at_left (k : String) (l : Row) :
    rowFindLast? (l.map (fun kv => (prefixKey "right" kv.1, kv.2))) (prefixKey "left" k) =
      none := by
  apply rowFindLast?_eq_none_of
  intro kv hm
  rw [List.mem_map] at hm
  obtain ⟨a, _, rfl⟩ := hm
  exact prefixKey_left_ne_right k a.1

theorem rowFindLast?_left_at_right (k : String) (l : Row) :
    rowFindLast? (l.map (fun kv => (prefixKey "left" kv.1, kv.2))) (prefixKey "right" k) =
      none := by
  apply rowFindLast?_eq_none_of
  intro kv hm
  rw [List.mem_map] at hm
  obtain ⟨a, _, rfl⟩ := hm
  exact prefixKey_right_ne_left k a.1

theorem rowFind?_rowHalf (p : String) (m : Row) (k : String) :
    rowFind? (rowHalf p m) k = rowFindLast? m (prefixKey p k) := by
  rw [rowHalf, rowFind?_ofList, rowFindLast?_filterMap_strip]

theorem rowHalf_left_merge {rl rr : Row} (hl : RowCanon rl) :
    rowHalf "left" (rowMerge (_prefix_row rl "left") (_prefix_row rr "right")) = rl := by
  refine rowExt ?_ hl ?_
  · exact rowCanon_ofList _
  intro k
  rw [rowFind?_rowHalf]
  have hM : RowCanon (rowMerge (_prefix_row rl "left") (_prefix_row rr "right")) :=
    rowCanon_merge _ (rowCanon_ofList _)
  rw [rowFindLast?_eq_rowFind? (keysNodup_of_canon hM), rowFind?_merge]
  have hBc : RowCanon (_prefix_row rr "right") := rowCanon_ofList _
  have hB : rowFindLast? (_prefix_row rr "right") (prefixKey "left" k) = none := by
    rw [rowFindLast?_eq_rowFind? (keysNodup_of_canon hBc)]
    show rowFind? (rowOfList (rr.map (fun kv => (prefixKey "right" kv.1, kv.2))))
        (prefixKey "left" k) = none
    rw [rowFind?_ofList]
    exact rowFindLast?_right_at_left k rr
  rw [hB]
  show rowFind? (_prefix_row rl "left") (prefixKey "left" k) = rowFind? rl k
  show rowFind? (rowOfList (rl.map (fun kv => (prefixKey "left" kv.1, kv.2))))
      (prefixKey "left" k) = rowFind? rl k
  rw [rowFind?_ofList, rowFindLast?_map_prefixKey]
  exact rowFindLast?_eq_rowFind? (keysNodup_of_canon hl) k

theorem rowHalf_right_merge {rl rr : Row} (hr : RowCanon rr) :
    rowHalf "right" (rowMerge (_prefix_row rl "left") (_prefix_row rr "right")) = rr := by
  refine rowExt ?_ hr ?_
  · exact rowCanon_ofList _
  intro k
  rw [rowFind?_rowHalf]
  have hM : RowCanon (rowMerge (_prefix_row rl "left") (_prefix_row rr "right")) :=
    rowCanon_merge _ (rowCanon_ofList _)
  rw [rowFindLast?_eq_rowFind? (keysNodup_of_canon hM), rowFind?_merge]
  have hBc : RowCanon (_prefix_row rr "right") := rowCanon_ofList _
  have hB : rowFindLast? (_prefix_row rr "right") (prefixKey "right" k) = rowFind? rr k := by
    rw [rowFindLast?_eq_rowFind? (keysNodup_of_canon hBc)]
    show rowFind? (rowOfList (rr.map (fun kv => (prefixKey "right" kv.1, kv.2))))
        (prefixKey "right" k) = rowFind? rr k
    rw [rowFind?_ofList, rowFindLast?_map_prefixKey]
    exact rowFindLast?_eq_rowFind? (keysNodup_of_canon hr) k
  have hA : rowFind? (_prefix_row rl "left") (prefixKey "right" k) = none := by
    show rowFind? (rowOfList (rl.map (fun kv => (prefixKey "left" kv.1, kv.2))))
        (prefixKey "right" k) = none
    rw [rowFind?_ofList]
    exact rowFindLast?_left_at_right k rl
  rw [hB, hA]
  cases rowFind? rr k <;> rfl

theorem adaptCond_merge {c : Row → Row → Bool} {rl rr : Row}
    (hl : RowCanon rl) (hr : RowCanon rr) :
    adaptCond c (rowMerge (_prefix_row rl "left") (_prefix_row rr "right")) = c rl rr := by
  simp only [adaptCond]
  rw [rowHalf_left_merge hl, rowHalf_right_merge hr]

theorem all_map_fn {α β : Type} (f : α → β) (l : List α) (p : β → Bool) :
    (l.map f).all p = l.all (fun a => p (f a)) := by
  induction l with
  | nil => rfl
  | cons a rest ih => simp [ih]

theorem mapME_ok_exists {f : Row → Except String Row} :
    ∀ {T : Table}, (∀ r ∈ T, ∃ y, f r = Except.ok y) → ∃ out, mapME f T = Except.ok out := by
  intro T
  induction T with
  | nil => intro _; exact ⟨[], rfl⟩
  | cons r rest ih =>
    intro h
    obtain ⟨y, hy⟩ := h r (List.mem_cons_self _ _)
    obtain ⟨out, hout⟩ := ih (fun r' hr' => h r' (List.mem_cons_of_mem _ hr'))
    exact ⟨y :: out, by simp [mapME, hy, hout]⟩

theorem rowHasKey_congr {r r' : Row} (h : rowKeys r = rowKeys r') (c : String) :
    rowHasKey r c = rowHasKey r' c := by
  have h1 : rowHasKey r c = true ↔ c ∈ rowKeys r := rowFind?_isSome_iff
  have h2 : rowHasKey r' c = true ↔ c ∈ rowKeys r' := rowFind?_isSome_iff
  rw [Bool.eq_iff_iff, h1, h2, h]

theorem padList_findLast? : ∀ (pcols : List String) (c : String),
    rowFindLast? (pcols.map (fun c => (c, Value.null))) c =
      if c ∈ pcols then some Value.null else none := by
  intro pcols
  induction pcols with
  | nil => intro c; simp [rowFindLast?]
  | cons c₀ rest ih =>
    intro c
    simp only [List.map_cons, rowFindLast?]
    rw [ih]
    by_cases hc : c ∈ rest
    · rw [if_pos hc, if_pos (List.mem_cons_of_mem _ hc)]
    · rw [if_neg hc]
      by_cases hc0 : c = c₀
      · subst hc0
        rw [if_pos rfl, if_pos (List.mem_cons_self _ _)]
      · rw [if_neg hc0, if_neg (fun hm => (List.mem_cons.mp hm).elim hc0 hc)]

theorem pad_row_find? (pcols : List String) (r₀ : Row) (c : String) :
    rowFind? (rowMerge r₀ (rowOfList (pcols.map (fun c => (c, Value.null))))) c =
      if c ∈ pcols then some Value.null else rowFind? r₀ c := by
  rw [rowFind?_merge]
  have hcan : RowCanon (rowOfList (pcols.map (fun c => (c, Value.null)))) := rowCanon_ofList _
  rw [rowFindLast?_eq_rowFind? (keysNodup_of_canon hcan), rowFind?_ofList, padList_findLast?]
  by_cases hc : c ∈ pcols
  · rw [if_pos hc, if_pos hc]
  · rw [if_neg hc, if_neg hc]

/-! ## The claims -/

/-- C7: `intersection(L, R)` equals `difference(L, difference(L, R))` for all
tables `L` and `R`: the operator is the repeated application of the
difference operator, not an independent set-intersection implementation. -/
theorem intersection_eq_diff_diff (L R : Table) :
    intersection L R = difference L (difference L R) :=
  remove_duplicates_eq_self (nodup_remove_duplicates _)

/-- C2 counterexample: on two single-row tables whose schemas (column sets)
differ, `difference` raises no error and silently returns the left rows,
refuting the claim that it fails fast on mismatched schemas. -/
theorem difference_mismatched_schema_cex :
    rowKeys [("a", Value.int 1)] = ["a"] ∧
    rowKeys [("b", Value.int 2)] = ["b"] ∧
    difference [[("a", Value.int 1)]] [[("b", Value.int 2)]] = [[("a", Value.int 1)]] := by
  exact ⟨rfl, rfl, rfl⟩

/-- C2 (amended): `difference(L, R)` performs no schema check and never
raises; for all tables (matching schemas or not) its rows are exactly the
rows of `L` not structurally present in `R`. -/
theorem difference_no_schema_check (L R : Table) (r : Row) :
    r ∈ difference L R ↔ r ∈ L ∧ r ∉ R :=
  mem_difference

/-- C9: `union` raises whenever either operand is the empty table, because
`_columns_in_table` reduces an empty sequence of key sets; it never returns
the other operand unchanged. -/
theorem union_empty_operand_errors (L R : Table) (h : L = [] ∨ R = []) :
    ∃ e, union L R = Except.error e := by
  rcases h with rfl | rfl
  · exact ⟨_, rfl⟩
  · cases L with
    | nil => exact ⟨_, rfl⟩
    | cons r rest => exact ⟨_, rfl⟩

/-- C9 witness: union with an empty left operand raises. -/
theorem union_empty_operand_errors_witness :
    ∃ e, union [] [[("a", Value.int 1)]] = Except.error e :=
  union_empty_operand_errors [] [[("a", Value.int 1)]] (Or.inl rfl)

/-- C8 counterexample: writing a field of a freshly constructed employee row
succeeds silently and rebinds the field, refuting the claim that rows are
write-once. -/
theorem row_mutation_cex :
    rowFind? (make_employee 0 "Michael Scott" "Regional Manager" 100000) "salary" =
      some (Value.int 100000) ∧
    rowFind? (rowSetItem (make_employee 0 "Michael Scott" "Regional Manager" 100000) "salary"
        (Value.int 0)) "salary" = some (Value.int 0) := by
  exact ⟨rfl, rfl⟩

/-- C8 (amended): rows are plain mutable dicts: item assignment on any row
always succeeds and rebinds the key, rather than failing. -/
theorem row_setItem_always_succeeds (r : Row) (k : String) (v : Value) :
    rowFind? (rowSetItem r k v) k = some v := by
  rw [rowSetItem, rowFind?_insert, if_pos rfl]

/-- C1 (code bug): with two common columns `a` and `b`, `natural_join` keeps
the pair whose rows agree on the last common column only: the returned
merged row has `left.a = 1` but `right.a = 5`, although the docstring and
the spec require equality on every common column (the correct result is
empty).  The closures in
`[lambda x, y: x[col] == y[col] for col in common_cols]` all read the loop
variable `col` after the loop has finished. -/
theorem natural_join_last_column_only :
    natural_join [[("a", Value.int 1), ("b", Value.int 2)]]
        [[("a", Value.int 1), ("b", Value.int 3)], [("a", Value.int 5), ("b", Value.int 2)]] =
      Except.ok [rowMerge (_prefix_row [("a", Value.int 1), ("b", Value.int 2)] "left")
        (_prefix_row [("a", Value.int 5), ("b", Value.int 2)] "right")] ∧
    rowFind? [("a", Value.int 1), ("b", Value.int 2)] "a" = some (Value.int 1) ∧
    rowFind? [("a", Value.int 5), ("b", Value.int 2)] "a" = some (Value.int 5) := by
  refine ⟨?_, rfl, rfl⟩
  rfl

/-- C10: `rename` reads every row of a non-empty table at every column in
the union of all rows' key sets: it raises a missing-key error whenever some
row lacks a column of that union, and never errors when all rows share the
same key set. -/
theorem rename_reads_every_column (T : Table) (m : List (String × String)) (hne : T ≠ []) :
    ((∃ r ∈ T, ∃ c ∈ listToSet (keysUnion T), rowHasKey r c = false) →
      ∃ e, rename T m = Except.error e) ∧
    ((∀ r ∈ T, ∀ r' ∈ T, ∀ c, rowHasKey r c = rowHasKey r' c) →
      ∃ out, rename T m = Except.ok out) := by
  have hcols : _columns_in_table T = Except.ok (listToSet (keysUnion T)) := by
    cases T with
    | nil => exact absurd rfl hne
    | cons r rest => rfl
  constructor
  · rintro ⟨r, hr, c, hc, hkey⟩
    have hnone : rowFind? r c = none := by
      cases ho : rowFind? r c with
      | none => rfl
      | some v =>
        rw [rowHasKey, ho] at hkey
        exact absurd hkey (by simp)
    obtain ⟨e, he⟩ := renameRowE_error (m := m) [] ⟨c, hc, hnone⟩
    obtain ⟨e', hmap⟩ := mapME_error_of
      (f := fun record => renameRowE m record (listToSet (keysUnion T)) []) (r := r)
      ⟨e, he⟩ hr
    exact ⟨e', by simp [rename, hcols, hmap]⟩
  · intro hsame
    have hall : ∀ r ∈ T, ∀ c ∈ listToSet (keysUnion T), (rowFind? r c).isSome = true := by
      intro r hr c hc
      rw [mem_listToSet, mem_keysUnion] at hc
      obtain ⟨r', hr', hcr'⟩ := hc
      have h1 : rowHasKey r' c = true := rowFind?_isSome_iff.mpr hcr'
      have h2 := hsame r hr r' hr' c
      rw [h1] at h2
      exact h2
    obtain ⟨out, hmap⟩ := mapME_ok_exists
      (f := fun record => renameRowE m record (listToSet (keysUnion T)) [])
      (fun r hr => renameRowE_ok (listToSet (keysUnion T)) [] (hall r hr))
    exact ⟨_remove_duplicates out, by simp [rename, hcols, hmap]⟩

/-- C10 witness: `rename` errors on a heterogeneous table and succeeds on a
table whose rows share their key set. -/
theorem rename_reads_every_column_witness :
    (∃ e, rename [[("a", Value.int 1)], [("b", Value.int 2)]] [] = Except.error e) ∧
    (∃ out, rename [[("a", Value.int 1)], [("a", Value.int 2)]] [("a", "c")] =
      Except.ok out) := by
  constructor
  · exact (rename_reads_every_column _ [] (by decide)).1
      ⟨[("a", Value.int 1)], by decide, "b", by decide, by decide⟩
  · refine (rename_reads_every_column _ [("a", "c")] (by decide)).2 ?_
    intro r hr r' hr' c
    have hx : ∀ x ∈ [[("a", Value.int 1)], [("a", Value.int 2)]], rowKeys x = ["a"] := by decide
    exact rowHasKey_congr ((hx r hr).trans (hx r' hr').symm) c

/-- C6: `project` fails with a missing-column error exactly when some row
lacks a requested column; otherwise it succeeds and returns the
deduplicated rows, each restricted to exactly the requested columns (with
the requested columns' values copied from the source row). -/
theorem project_missing_or_restrict (T : Table) (cols : List String) :
    ((∃ r ∈ T, ∃ c ∈ cols, rowHasKey r c = false) →
      ∃ e, project T cols = Except.error e) ∧
    ((∀ r ∈ T, ∀ c ∈ cols, rowHasKey r c = true) →
      ∃ out, project T cols = Except.ok out ∧ out.Nodup ∧
        (∀ r', r' ∈ out ↔ RowCanon r' ∧ ∃ r ∈ T, ∀ c,
          rowFind? r' c = if c ∈ cols then rowFind? r c else none)) := by
  constructor
  · rintro ⟨r, hr, c, hc, hkey⟩
    have hnone : rowFind? r c = none := by
      cases ho : rowFind? r c with
      | none => rfl
      | some v =>
        rw [rowHasKey, ho] at hkey
        exact absurd hkey (by simp)
    obtain ⟨e, he⟩ := projectRowE_error [] ⟨c, hc, hnone⟩
    obtain ⟨e', hmap⟩ := mapME_error_of
      (f := fun record => projectRowE record cols []) (r := r) ⟨e, he⟩ hr
    exact ⟨e', by simp [project, hmap]⟩
  · intro h
    have hok : ∀ r ∈ T, (fun record => projectRowE record cols []) r =
        Except.ok (projRowP r cols []) :=
      fun r hr => projectRowE_ok cols [] (fun c hc => h r hr c hc)
    refine ⟨_remove_duplicates (T.map (fun r => projRowP r cols [])),
      by simp [project, mapME_ok_of hok], nodup_remove_duplicates _, ?_⟩
    intro r'
    rw [mem_remove_duplicates, List.mem_map]
    constructor
    · rintro ⟨r, hr, rfl⟩
      refine ⟨projRowP_canon r cols rowCanon_nil, r, hr, fun c => ?_⟩
      rw [projRowP_find?]
      by_cases hc : c ∈ cols
      · rw [if_pos hc, if_pos hc]
        have hs := h r hr c hc
        cases ho : rowFind? r c with
        | none => rw [rowHasKey, ho] at hs; exact absurd hs (by simp)
        | some v => simp
      · rw [if_neg hc, if_neg hc]
        rfl
    · rintro ⟨hcanon, r, hr, hprof⟩
      refine ⟨r, hr, ?_⟩
      apply rowExt (projRowP_canon r cols rowCanon_nil) hcanon
      intro k
      rw [projRowP_find?, hprof k]
      by_cases hc : k ∈ cols
      · rw [if_pos hc, if_pos hc]
        have hs := h r hr k hc
        cases ho : rowFind? r k with
        | none => rw [rowHasKey, ho] at hs; exact absurd hs (by simp)
        | some v => simp
      · rw [if_neg hc, if_neg hc]
        rfl

/-- C6 witness: `project` errors on a missing column and succeeds (with
deduplication collapsing the two rows) on present columns. -/
theorem project_missing_or_restrict_witness :
    (∃ e, project [[("a", Value.int 1)]] ["b"] = Except.error e) ∧
    (∃ out, project [[("a", Value.int 1), ("b", Value.int 2)],
        [("a", Value.int 1), ("b", Value.int 3)]] ["a"] = Except.ok out ∧ out.Nodup ∧
      (∀ r', r' ∈ out ↔ RowCanon r' ∧ ∃ r ∈ [[("a", Value.int 1), ("b", Value.int 2)],
          [("a", Value.int 1), ("b", Value.int 3)]], ∀ c,
        rowFind? r' c = if c ∈ ["a"] then rowFind? r c else none)) := by
  constructor
  · exact (project_missing_or_restrict [[("a", Value.int 1)]] ["b"]).1
      ⟨[("a", Value.int 1)], by decide, "b", by decide, by decide⟩
  · exact (project_missing_or_restrict _ ["a"]).2 (by decide)

theorem table_map_id (t : Table) : t.map (fun row => row) = t := by
  induction t with
  | nil => rfl
  | cons r rest ih => rw [List.map_cons, ih]

/-- C3 counterexample: for `L = R = [{a: 1}]` the difference is empty, so
`union(difference(L, R), intersection(L, R))` raises the empty-table
`TypeError` instead of returning `L`. -/
theorem union_partition_cex :
    difference [[("a", Value.int 1)]] [[("a", Value.int 1)]] = [] ∧
    intersection [[("a", Value.int 1)]] [[("a", Value.int 1)]] = [[("a", Value.int 1)]] ∧
    union (difference [[("a", Value.int 1)]] [[("a", Value.int 1)]])
        (intersection [[("a", Value.int 1)]] [[("a", Value.int 1)]]) =
      Except.error "TypeError: set.union needs at least one argument" := by
  exact ⟨rfl, rfl, rfl⟩

/-- C3 (amended): when `L` and `R` share schema `S` and both
`difference(L, R)` and `intersection(L, R)` are non-empty,
`union(difference(L, R), intersection(L, R))` succeeds and its rows are
exactly the rows of `L` (the two parts partition `L`'s rows up to
deduplication and order). -/
theorem union_diff_inter_partition (L R : Table) (S : List String)
    (hL : ∀ r ∈ L, rowKeys r = S) (hR : ∀ r ∈ R, rowKeys r = S)
    (hd : difference L R ≠ []) (hi : intersection L R ≠ []) :
    ∃ T, union (difference L R) (intersection L R) = Except.ok T ∧
      ∀ r, r ∈ T ↔ r ∈ L := by
  have hdk : ∀ r ∈ difference L R, rowKeys r = S :=
    fun r hr => hL r (mem_difference.mp hr).1
  have hik : ∀ r ∈ intersection L R, rowKeys r = S :=
    fun r hr => hL r (mem_intersection.mp hr).1
  have hc1 : _columns_in_table (difference L R) = Except.ok (listToSet S) :=
    columns_of_homog hd hdk
  have hc2 : _columns_in_table (intersection L R) = Except.ok (listToSet S) :=
    columns_of_homog hi hik
  have hfilter : (listToSet S).filter (fun c => decide (c ∉ listToSet S)) = [] :=
    List.filter_eq_nil_iff.mpr (fun a ha => by simp [ha])
  have hpad : ∀ t : Table, t.Nodup → _pad_table t [] = t := by
    intro t ht
    have h1 : _pad_table t [] = _remove_duplicates (t.map (fun row => row)) := rfl
    rw [h1, table_map_id]
    exact remove_duplicates_eq_self ht
  have hnd : (difference L R).Nodup := nodup_remove_duplicates _
  have hni : (intersection L R).Nodup := nodup_remove_duplicates _
  refine ⟨_remove_duplicates (difference L R ++ intersection L R), ?_, ?_⟩
  · simp only [union, hc1, hc2, hfilter, hpad _ hnd, hpad _ hni]
  · intro r
    rw [mem_remove_duplicates, List.mem_append, mem_difference, mem_intersection]
    constructor
    · rintro (⟨h1, _⟩ | ⟨h1, _⟩) <;> exact h1
    · intro h1
      by_cases hr : r ∈ R
      · exact Or.inr ⟨h1, hr⟩
      · exact Or.inl ⟨h1, hr⟩

/-- C3 witness: a concrete same-schema pair where difference and
intersection are both non-empty and the partition property holds. -/
theorem union_diff_inter_partition_witness :
    ∃ T, union (difference [[("a", Value.int 1)], [("a", Value.int 2)]] [[("a", Value.int 2)]])
        (intersection [[("a", Value.int 1)], [("a", Value.int 2)]] [[("a", Value.int 2)]]) =
      Except.ok T ∧ ∀ r, r ∈ T ↔ r ∈ [[("a", Value.int 1)], [("a", Value.int 2)]] :=
  union_diff_inter_partition _ _ ["a"] (by decide) (by decide) (by decide) (by decide)

/-- C5: for non-empty tables whose rows share their respective schemas `SL`
and `SR`, `union` succeeds, every output row's column set is exactly
`SL ∪ SR`, and each column missing from a row's source table is present with
an explicit null (never an absent key), the other columns keeping the
source row's values. -/
theorem union_schema_widening (L R : Table) (SL SR : List String)
    (hLne : L ≠ []) (hRne : R ≠ [])
    (hL : ∀ r ∈ L, rowKeys r = SL) (hR : ∀ r ∈ R, rowKeys r = SR) :
    ∃ T, union L R = Except.ok T ∧
      ∀ r ∈ T, (∀ c, rowHasKey r c = true ↔ (c ∈ SL ∨ c ∈ SR)) ∧
        ((∃ r₀ ∈ L, (∀ c, c ∈ SR → c ∉ SL → rowFind? r c = some Value.null) ∧
            (∀ c ∈ SL, rowFind? r c = rowFind? r₀ c)) ∨
          (∃ r₀ ∈ R, (∀ c, c ∈ SL → c ∉ SR → rowFind? r c = some Value.null) ∧
            (∀ c ∈ SR, rowFind? r c = rowFind? r₀ c))) := by
  have hc1 : _columns_in_table L = Except.ok (listToSet SL) := columns_of_homog hLne hL
  have hc2 : _columns_in_table R = Except.ok (listToSet SR) := columns_of_homog hRne hR
  refine ⟨_remove_duplicates
    (_pad_table L ((listToSet SR).filter (fun c => decide (c ∉ listToSet SL))) ++
     _pad_table R ((listToSet SL).filter (fun c => decide (c ∉ listToSet SR)))),
    by simp only [union, hc1, hc2], ?_⟩
  intro r hr
  rw [mem_remove_duplicates, List.mem_append] at hr
  rcases hr with hr | hr
  · rw [_pad_table, mem_remove_duplicates, List.mem_map] at hr
    obtain ⟨r₀, hr₀, rfl⟩ := hr
    constructor
    · intro c
      have hfind := pad_row_find?
        ((listToSet SR).filter (fun c => decide (c ∉ listToSet SL))) r₀ c
      by_cases hc : c ∈ (listToSet SR).filter (fun c => decide (c ∉ listToSet SL))
      · rw [if_pos hc] at hfind
        have hrc : rowHasKey (rowMerge r₀ (rowOfList
            (((listToSet SR).filter (fun c => decide (c ∉ listToSet SL))).map
              (fun c => (c, Value.null))))) c = true := by
          rw [rowHasKey, hfind]
          rfl
        rw [hrc]
        simp only [true_iff]
        exact Or.inr (mem_listToSet.mp (List.mem_filter.mp hc).1)
      · rw [if_neg hc] at hfind
        have hrc : rowHasKey (rowMerge r₀ (rowOfList
            (((listToSet SR).filter (fun c => decide (c ∉ listToSet SL))).map
              (fun c => (c, Value.null))))) c = (rowFind? r₀ c).isSome := by
          rw [rowHasKey, hfind]
        rw [hrc, rowFind?_isSome_iff, hL r₀ hr₀]
        constructor
        · exact Or.inl
        · rintro (h | h)
          · exact h
          · have hmem : c ∈ listToSet SL := by
              by_contra hno
              exact hc (List.mem_filter.mpr ⟨mem_listToSet.mpr h, by simpa using hno⟩)
            exact mem_listToSet.mp hmem
    · left
      refine ⟨r₀, hr₀, ?_, ?_⟩
      · intro c hcSR hcSL
        have hnotL : c ∉ listToSet SL := fun hm => hcSL (mem_listToSet.mp hm)
        rw [pad_row_find?, if_pos (List.mem_filter.mpr
          ⟨mem_listToSet.mpr hcSR, decide_eq_true hnotL⟩)]
      · intro c hcSL
        rw [pad_row_find?, if_neg (fun hm =>
          (by simpa using (List.mem_filter.mp hm).2 : c ∉ listToSet SL)
            (mem_listToSet.mpr hcSL))]
  · rw [_pad_table, mem_remove_duplicates, List.mem_map] at hr
    obtain ⟨r₀, hr₀, rfl⟩ := hr
    constructor
    · intro c
      have hfind := pad_row_find?
        ((listToSet SL).filter (fun c => decide (c ∉ listToSet SR))) r₀ c
      by_cases hc : c ∈ (listToSet SL).filter (fun c => decide (c ∉ listToSet SR))
      · rw [if_pos hc] at hfind
        have hrc : rowHasKey (rowMerge r₀ (rowOfList
            (((listToSet SL).filter (fun c => decide (c ∉ listToSet SR))).map
              (fun c => (c, Value.null))))) c = true := by
          rw [rowHasKey, hfind]
          rfl
        rw [hrc]
        simp only [true_iff]
        exact Or.inl (mem_listToSet.mp (List.mem_filter.mp hc).1)
      · rw [if_neg hc] at hfind
        have hrc : rowHasKey (rowMerge r₀ (rowOfList
            (((listToSet SL).filter (fun c => decide (c ∉ listToSet SR))).map
              (fun c => (c, Value.null))))) c = (rowFind? r₀ c).isSome := by
          rw [rowHasKey, hfind]
        rw [hrc, rowFind?_isSome_iff, hR r₀ hr₀]
        constructor
        · exact Or.inr
        · rintro (h | h)
          · have hmem : c ∈ listToSet SR := by
              by_contra hno
              exact hc (List.mem_filter.mpr ⟨mem_listToSet.mpr h, by simpa using hno⟩)
            exact mem_listToSet.mp hmem
          · exact h
    · right
      refine ⟨r₀, hr₀, ?_, ?_⟩
      · intro c hcSL hcSR
        have hnotR : c ∉ listToSet SR := fun hm => hcSR (mem_listToSet.mp hm)
        rw [pad_row_find?, if_pos (List.mem_filter.mpr
          ⟨mem_listToSet.mpr hcSL, decide_eq_true hnotR⟩)]
      · intro c hcSR
        rw [pad_row_find?, if_neg (fun hm =>
          (by simpa using (List.mem_filter.mp hm).2 : c ∉ listToSet SR)
            (mem_listToSet.mpr hcSR))]

/-- C5 witness: unioning `{a: 1}` with `{b: 2}` widens both schemas. -/
theorem union_schema_widening_witness :
    ∃ T, union [[("a", Value.int 1)]] [[("b", Value.int 2)]] = Except.ok T ∧
      ∀ r ∈ T, (∀ c, rowHasKey r c = true ↔ (c ∈ ["a"] ∨ c ∈ ["b"])) ∧
        ((∃ r₀ ∈ [[("a", Value.int 1)]],
            (∀ c, c ∈ ["b"] → c ∉ ["a"] → rowFind? r c = some Value.null) ∧
            (∀ c ∈ ["a"], rowFind? r c = rowFind? r₀ c)) ∨
          (∃ r₀ ∈ [[("b", Value.int 2)]],
            (∀ c, c ∈ ["a"] → c ∉ ["b"] → rowFind? r c = some Value.null) ∧
            (∀ c ∈ ["b"], rowFind? r c = rowFind? r₀ c))) :=
  union_schema_widening _ _ ["a"] ["b"] (by decide) (by decide) (by decide) (by decide)

/-- C4: `theta_join(L, R, C)` equals `select(cross_product(L, R), C')` where
each condition of `C'` is the corresponding condition of `C` adapted (by
`adaptCond`) to read the left and right halves of the prefixed merged row,
for all canonical-row tables. -/
theorem theta_join_eq_select_cross (L R : Table) (C : List (Row → Row → Bool))
    (hL : ∀ r ∈ L, RowCanon r) (hR : ∀ r ∈ R, RowCanon r) :
    theta_join L R C = select (cross_product L R) (C.map adaptCond) := by
  rw [theta_join, select, cross_product, _prefix_columns, _prefix_columns, pairsOf_map,
    List.map_map]
  have hM : ((fun p : Row × Row => rowMerge p.1 p.2) ∘
      (fun p : Row × Row => (_prefix_row p.1 "left", _prefix_row p.2 "right"))) =
      fun p : Row × Row => rowMerge (_prefix_row p.1 "left") (_prefix_row p.2 "right") := rfl
  rw [hM, ← remove_duplicates_filter, remove_duplicates_idem, List.filter_map]
  congr 2
  apply List.filter_congr
  intro p hp
  obtain ⟨p1, p2⟩ := p
  have hmem := mem_pairsOf.mp hp
  have h1 := hL p1 hmem.1
  have h2 := hR p2 hmem.2
  show C.all (fun cond => cond p1 p2) =
    (C.map adaptCond).all (fun cond =>
      cond (rowMerge (_prefix_row p1 "left") (_prefix_row p2 "right")))
  rw [all_map_fn]
  congr 1
  funext cond
  exact (adaptCond_merge h1 h2).symm

/-- C4 witness: the equivalence at a concrete pair of canonical tables and a
concrete condition list. -/
theorem theta_join_eq_select_cross_witness :
    (∀ r ∈ [[("a", Value.int 1)], [("a", Value.int 2)]], RowCanon r) ∧
    (∀ r ∈ [[("b", Value.int 2)]], RowCanon r) ∧
    theta_join [[("a", Value.int 1)], [("a", Value.int 2)]] [[("b", Value.int 2)]]
        [fun x y => rowFind? x "a" == rowFind? y "b"] =
      select (cross_product [[("a", Value.int 1)], [("a", Value.int 2)]] [[("b", Value.int 2)]])
        (List.map adaptCond [fun x y => rowFind? x "a" == rowFind? y "b"]) :=
  ⟨by decide, by decide,
    theta_join_eq_select_cross _ _ _ (by decide) (by decide)⟩

end RelDB
